import Mathlib

/-!
Verification of the figure_checker image-labeling tool (`src/src/app/page.tsx`).

The embedding works over `List Char` strings.  JavaScript `Map` objects are
modelled as association lists in insertion order, with `Map.set` updating an
existing key in place (keeping its position) and appending fresh keys at the
end, exactly as JavaScript specifies.  `String.prototype.split(sep)` for a
one-character separator is `splitOnChar`, `Array.prototype.join` is
`joinLines`, `String.prototype.trim` is `trim`, and `Array.prototype.findIndex`
is `findIndex` (returning `Option Nat` instead of `-1`).
-/

namespace FigureChecker

abbrev Str := List Char

abbrev ChoiceMap := List (Str × Str)

/-- Whitespace as removed by `String.prototype.trim` (ASCII portion). -/
def isWs (c : Char) : Bool := c = ' ' || c = '\t' || c = '\n' || c = '\r'

/-- `s.trim()` : drop whitespace from both ends. -/
def trim (s : Str) : Str := ((s.dropWhile isWs).reverse.dropWhile isWs).reverse

/-- `s.toLowerCase()` (ASCII portion). -/
def lowerStr (s : Str) : Str := s.map Char.toLower

/-- `s.split(sep)` for a single-character separator, JavaScript semantics:
`"".split(s) = [""]`, `"a\n".split("\n") = ["a", ""]`. -/
def splitOnChar (sep : Char) : Str → List Str
  | [] => [[]]
  | c :: cs =>
    match splitOnChar sep cs with
    | [] => [[]]
    | x :: xs => if c = sep then [] :: x :: xs else (c :: x) :: xs

/-- `parts.join(sep)` for a single-character separator. -/
def joinLines (sep : Char) : List Str → Str
  | [] => []
  | [x] => x
  | x :: y :: rest => x ++ sep :: joinLines sep (y :: rest)

/-- `array.findIndex(p)`, with `none` for `-1`. -/
def findIndex (p : α → Bool) : List α → Option Nat
  | [] => none
  | x :: xs => if p x then some 0 else (findIndex p xs).map (· + 1)

/-- `map.has(k)` on a JavaScript `Map` modelled as an association list. -/
def mapHas (m : ChoiceMap) (k : Str) : Bool := m.any (fun p => p.1 == k)

/-- `map.set(k, v)` on a JavaScript `Map`: updates an existing key in place
(keeping its position and original key object), appends a fresh key. -/
def mapSet (m : ChoiceMap) (k v : Str) : ChoiceMap :=
  if mapHas m k then m.map (fun p => if p.1 == k then (p.1, v) else p)
  else m ++ [(k, v)]

/-- `map.get(k)` on a JavaScript `Map`, `none` for `undefined`. -/
def mapLookup (m : ChoiceMap) (k : Str) : Option Str :=
  (m.find? (fun p => p.1 == k)).map (fun p => p.2)

/-- The per-session state of `Home`: `images`, `currentImageIndex`,
`imageChoices` (page.tsx lines 18, 19, 30). -/
structure SessionState where
  images : List Str
  currentImageIndex : Nat
  imageChoices : ChoiceMap
deriving DecidableEq, Repr

/-- `handleChoice` (page.tsx lines 99-123): no-op on an empty image list,
otherwise upsert the choice for the current image and advance the cursor,
wrapping from the last index to 0.  The timeline scroll is presentational
and not modelled. -/
def handleChoice (st : SessionState) (choice : Str) : SessionState :=
  if st.images.length = 0 then st
  else
    let image := st.images.getD st.currentImageIndex []
    let nextIndex :=
      if st.currentImageIndex < st.images.length - 1 then st.currentImageIndex + 1 else 0
    { images := st.images
      currentImageIndex := nextIndex
      imageChoices := mapSet st.imageChoices image choice }

/-- `goToNextUnselected` (page.tsx lines 280-298): move the cursor to the
first image absent from `imageChoices`; when every image has a choice
(`findIndex` returns `-1`) the state is left untouched — the source has no
`else` branch. -/
def goToNextUnselected (st : SessionState) : SessionState :=
  match findIndex (fun im => ! mapHas st.imageChoices im) st.images with
  | some i => { st with currentImageIndex := i }
  | none => st

/-- A label definition `{ key, value }` (page.tsx lines 25-28). -/
structure LabelDef where
  key : Str
  value : Str
deriving DecidableEq, Repr

/-- The default schema `[{y, Y}, {n, N}]` (page.tsx lines 25-28). -/
def defaultLabels : List LabelDef :=
  [⟨"y".data, "Y".data⟩, ⟨"n".data, "N".data⟩]

/-- `labels.find(label => label.key.toLowerCase() === event.key.toLowerCase())`
(page.tsx lines 302-304). -/
def matchedLabel (labels : List LabelDef) (eventKey : Str) : Option LabelDef :=
  labels.find? (fun l => lowerStr l.key == lowerStr eventKey)

/-- `handleKeyDown` (page.tsx lines 301-308): dispatch a keystroke through
`matchedLabel`, invoking `handleChoice` with the matched value. -/
def handleKeyDown (labels : List LabelDef) (st : SessionState) (eventKey : Str) :
    SessionState :=
  match matchedLabel labels eventKey with
  | some l => handleChoice st l.value
  | none => st

/-- `onClick={() => handleChoice(label.value)}` (page.tsx line 603). -/
def clickLabelButton (st : SessionState) (l : LabelDef) : SessionState :=
  handleChoice st l.value

/-- The regex test `/\.(jpg|jpeg|png|gif)$/i.test(name)` (page.tsx lines 46
and 84): the name, lowercased, ends in one of the four extensions. -/
def hasImageExt (name : Str) : Bool :=
  ".jpg".data.isSuffixOf (lowerStr name) || ".jpeg".data.isSuffixOf (lowerStr name) ||
  ".png".data.isSuffixOf (lowerStr name) || ".gif".data.isSuffixOf (lowerStr name)

/-- A directory entry as enumerated by the directory handle: its name and
whether `handle.kind === 'file'`. -/
structure DirEntry where
  name : Str
  isFile : Bool
deriving DecidableEq, Repr

/-- The scan loop of `handleDirectorySelect` (page.tsx lines 41-51): keep the
names of file entries passing the image-extension test, in enumeration
order. -/
def handleDirectorySelectImages (entries : List DirEntry) : List Str :=
  (entries.filter (fun e => e.isFile && hasImageExt e.name)).map (fun e => e.name)

/-- The scan loop of `handleDirectoryChange` (page.tsx lines 77-88): for each
file's `webkitRelativePath`, take the bare file name
(`relativePath.split('/').pop()`), keep it when truthy and passing the
image-extension test. -/
def handleDirectoryChangeImages (paths : List Str) : List Str :=
  paths.filterMap (fun p =>
    match (splitOnChar '/' p).getLast? with
    | some n => if !n.isEmpty && hasImageExt n then some n else none
    | none => none)

/-- Result of the CSV load path: the new `imageChoices`, the new
`currentImageIndex`, and the status message passed to `setError`. -/
structure LoadResult where
  choices : ChoiceMap
  index : Nat
  message : String
deriving DecidableEq, Repr

/-- The batch-save serialization of `saveCsv` (page.tsx lines 154-157):
`'Image,Choice\n'` followed by the `identifier,value` lines joined with
`'\n'`, in the `Map`'s insertion order. -/
def csvContent (choices : ChoiceMap) : Str :=
  "Image,Choice\n".data ++ joinLines '\n' (choices.map (fun p => p.1 ++ ',' :: p.2))

/-- One iteration of the parse loop of `processCsvFile` (page.tsx lines
187-195): trim the line; skip it if empty; `line.split(',')` and destructure
the first two fields; if both are truthy, `set(imageName.trim(), choice.trim())`. -/
def parseCsvLine (m : ChoiceMap) (rawLine : Str) : ChoiceMap :=
  let line := trim rawLine
  if line.isEmpty then m
  else
    match splitOnChar ',' line with
    | a :: b :: _ => if !a.isEmpty && !b.isEmpty then mapSet m (trim a) (trim b) else m
    | _ => m

/-- `text.split('\n').filter(line => line.trim())` (page.tsx line 177). -/
def csvLines (text : Str) : List Str :=
  (splitOnChar '\n' text).filter (fun l => !(trim l).isEmpty)

/-- `processCsvFile` (page.tsx lines 174-213) as a pure state transformer:
reject texts with fewer than 2 non-blank lines leaving the state unchanged;
otherwise fold the parse loop over the lines after the header and set the
cursor to the first image absent from the loaded map, or 0 if none. -/
def processCsvFile (text : Str) (images : List Str) (prevChoices : ChoiceMap)
    (prevIndex : Nat) : LoadResult :=
  let lines := csvLines text
  if lines.length < 2 then
    { choices := prevChoices, index := prevIndex, message := "Invalid CSV format" }
  else
    let newChoices := (lines.drop 1).foldl parseCsvLine []
    let idx :=
      match findIndex (fun im => ! mapHas newChoices im) images with
      | some i => i
      | none => 0
    { choices := newChoices, index := idx
      message := "CSV loaded successfully. " ++ toString newChoices.length ++ " choices loaded." }

/-- The `(identifier, value)` pair a parse-loop iteration would insert, if
any; derived bookkeeping for stating last-wins behaviour. -/
def linePair (rawLine : Str) : Option (Str × Str) :=
  let line := trim rawLine
  if line.isEmpty then none
  else
    match splitOnChar ',' line with
    | a :: b :: _ => if !a.isEmpty && !b.isEmpty then some (trim a, trim b) else none
    | _ => none

/-- The parsed `(identifier, value)` pairs of a CSV text, in file order. -/
def csvPairs (text : Str) : List (Str × Str) :=
  ((csvLines text).drop 1).filterMap linePair

/-- `s` split at its first occurrence of `sep`, `none` when `sep` is absent. -/
def splitAtFirst (sep : Char) : Str → Option (Str × Str)
  | [] => none
  | c :: cs =>
    if c = sep then some ([], cs)
    else (splitAtFirst sep cs).map (fun q => (c :: q.1, q.2))

/-- A read-path parse step following the spec's words rather than the source:
"split each on the first comma, trim both fields", skipping lines with a
missing comma or an empty identifier.  Stated only to compare with
`parseCsvLine`, which is translated from the source. -/
def parseCsvLineSpecWords (m : ChoiceMap) (rawLine : Str) : ChoiceMap :=
  let line := trim rawLine
  match splitAtFirst ',' line with
  | some q => if (trim q.1).isEmpty then m else mapSet m (trim q.1) (trim q.2)
  | none => m

end FigureChecker
open FigureChecker
namespace FigureChecker

theorem splitOnChar_ne_nil (sep : Char) (s : Str) : splitOnChar sep s ≠ [] := by
  induction s with
  | nil => simp [splitOnChar]
  | cons c cs ih =>
    simp only [splitOnChar]
    cases h : splitOnChar sep cs with
    | nil => simp
    | cons x xs =>
      by_cases hc : c = sep <;> simp [hc]

theorem splitOnChar_no_sep (sep : Char) (s : Str) (h : sep ∉ s) :
    splitOnChar sep s = [s] := by
  induction s with
  | nil => rfl
  | cons c cs ih =>
    have hc : c ≠ sep := fun hc => h (hc ▸ List.mem_cons_self c cs)
    have hcs : sep ∉ cs := fun hm => h (List.mem_cons_of_mem c hm)
    simp only [splitOnChar, ih hcs]
    simp [hc]

theorem splitOnChar_append_sep (sep : Char) (a b : Str) (h : sep ∉ a) :
    splitOnChar sep (a ++ sep :: b) = a :: splitOnChar sep b := by
  induction a with
  | nil =>
    simp only [List.nil_append, splitOnChar]
    cases hb : splitOnChar sep b with
    | nil => exact absurd hb (splitOnChar_ne_nil sep b)
    | cons x xs => simp
  | cons c a' ih =>
    have hc : c ≠ sep := fun hc => h (hc ▸ List.mem_cons_self c a')
    have ha' : sep ∉ a' := fun hm => h (List.mem_cons_of_mem c hm)
    simp only [List.cons_append, splitOnChar, List.append_eq]
    rw [ih ha']
    simp [hc]

theorem splitOnChar_joinLines (sep : Char) (parts : List Str) (hne : parts ≠ [])
    (h : ∀ x ∈ parts, sep ∉ x) :
    splitOnChar sep (joinLines sep parts) = parts := by
  induction parts with
  | nil => exact absurd rfl hne
  | cons x rest ih =>
    cases rest with
    | nil =>
      simp only [joinLines]
      exact splitOnChar_no_sep sep x (h x (List.mem_cons_self x []))
    | cons y rest' =>
      simp only [joinLines]
      rw [splitOnChar_append_sep sep x _ (h x (List.mem_cons_self x _))]
      rw [ih (by simp) (fun z hz => h z (List.mem_cons_of_mem x hz))]

end FigureChecker
namespace FigureChecker

theorem dropWhile_eq_self_head (l : Str) (hh : ∀ c cs, l = c :: cs → isWs c = false) :
    l.dropWhile isWs = l := by
  cases l with
  | nil => rfl
  | cons c cs => rw [List.dropWhile_cons]; simp [hh c cs rfl]

theorem head_not_ws (l : Str) (h : l.dropWhile isWs = l) (c : Char) (cs : Str)
    (hl : l = c :: cs) : isWs c = false := by
  subst hl
  cases hws : isWs c with
  | false => rfl
  | true =>
    rw [List.dropWhile_cons, if_pos hws] at h
    have hlen := (List.dropWhile_suffix (l := cs) isWs).length_le
    rw [h] at hlen
    simp at hlen

theorem trim_fix_dropWhile (s : Str) (h : trim s = s) :
    s.dropWhile isWs = s ∧ s.reverse.dropWhile isWs = s.reverse := by
  have hd : s.dropWhile isWs = s := by
    have h1 : ((s.dropWhile isWs).reverse.dropWhile isWs).length ≤ (s.dropWhile isWs).length := by
      have := (List.dropWhile_suffix (l := (s.dropWhile isWs).reverse) isWs).length_le
      simpa using this
    have h2 : (s.dropWhile isWs).length ≤ s.length :=
      (List.dropWhile_suffix (l := s) isWs).length_le
    have h3 : (trim s).length = s.length := by rw [h]
    have h4 : (trim s).length = ((s.dropWhile isWs).reverse.dropWhile isWs).length := by
      simp [trim]
    exact (List.dropWhile_suffix (l := s) isWs).eq_of_length (by omega)
  refine ⟨hd, ?_⟩
  have : trim s = (s.reverse.dropWhile isWs).reverse := by rw [trim, hd]
  rw [h] at this
  have := congrArg List.reverse this
  simpa using this.symm

theorem trim_append_fix (a b : Str) (c : Char) (ha : trim a = a) (hb : trim b = b)
    (hna : a ≠ []) (hnb : b ≠ []) :
    trim (a ++ c :: b) = a ++ c :: b := by
  obtain ⟨ha1, _⟩ := trim_fix_dropWhile a ha
  obtain ⟨_, hb2⟩ := trim_fix_dropWhile b hb
  have step1 : (a ++ c :: b).dropWhile isWs = a ++ c :: b := by
    apply dropWhile_eq_self_head
    intro x xs hx
    cases a with
    | nil => exact absurd rfl hna
    | cons a0 a' =>
      have : a0 = x := by simpa using congrArg (fun l => l.headD ' ') hx
      subst this
      exact head_not_ws _ ha1 a0 a' rfl
  have hbrev : b.reverse ≠ [] := by simpa using hnb
  have step2 : (b.reverse ++ c :: a.reverse).dropWhile isWs = b.reverse ++ c :: a.reverse := by
    apply dropWhile_eq_self_head
    intro x xs hx
    cases hbr : b.reverse with
    | nil => exact absurd hbr hbrev
    | cons b0 b' =>
      rw [hbr] at hx
      have : b0 = x := by simpa using congrArg (fun l => l.headD ' ') hx
      subst this
      exact head_not_ws _ (hbr ▸ hb2) b0 b' rfl
  rw [trim, step1]
  rw [show (a ++ c :: b).reverse = b.reverse ++ c :: a.reverse by simp]
  rw [step2]
  simp

theorem trim_ne_nil (a b : Str) (c : Char) (ha : trim a = a) (hb : trim b = b)
    (hna : a ≠ []) (hnb : b ≠ []) :
    (trim (a ++ c :: b)).isEmpty = false := by
  rw [trim_append_fix a b c ha hb hna hnb]
  cases a with
  | nil => exact absurd rfl hna
  | cons x xs => rfl

end FigureChecker
namespace FigureChecker

theorem mapHas_false_iff (m : ChoiceMap) (k : Str) :
    mapHas m k = false ↔ ∀ p ∈ m, p.1 ≠ k := by
  simp [mapHas, List.any_eq_true]

theorem mapSet_append (m : ChoiceMap) (k v : Str) (h : mapHas m k = false) :
    mapSet m k v = m ++ [(k, v)] := by
  simp [mapSet, h]

theorem mapHas_append_iff (m1 m2 : ChoiceMap) (k : Str) :
    mapHas (m1 ++ m2) k = (mapHas m1 k || mapHas m2 k) := by
  simp [mapHas, List.any_append]

/-- Folding insertions of pairwise-fresh keys over a map rebuilds the list. -/
theorem foldl_mapSet_rebuild (choices acc : ChoiceMap)
    (hnd : (choices.map Prod.fst).Nodup)
    (hfresh : ∀ p ∈ choices, mapHas acc p.1 = false) :
    choices.foldl (fun m p => mapSet m p.1 p.2) acc = acc ++ choices := by
  induction choices generalizing acc with
  | nil => simp
  | cons p rest ih =>
    simp only [List.foldl_cons]
    rw [mapSet_append acc p.1 p.2 (hfresh p (List.mem_cons_self p rest))]
    have hnd' : (rest.map Prod.fst).Nodup := by
      simpa using hnd.of_cons
    have hfresh' : ∀ q ∈ rest, mapHas (acc ++ [(p.1, p.2)]) q.1 = false := by
      intro q hq
      rw [mapHas_append_iff]
      have h1 : mapHas acc q.1 = false := hfresh q (List.mem_cons_of_mem p hq)
      have h2 : p.1 ≠ q.1 := by
        have hnode : (p.1 :: rest.map Prod.fst).Nodup := by simpa using hnd
        have hnotin := (List.nodup_cons.mp hnode).1
        intro hcontra
        exact hnotin (hcontra ▸ List.mem_map_of_mem Prod.fst hq)
      have h3 : mapHas [(p.1, p.2)] q.1 = false := by
        simp [mapHas]
        exact h2
      rw [h1, h3]
      rfl
    rw [ih _ hnd' hfresh']
    simp
end FigureChecker
namespace FigureChecker

theorem isEmpty_false_of_ne_nil (l : Str) (h : l ≠ []) : l.isEmpty = false := by
  cases l with
  | nil => exact absurd rfl h
  | cons x xs => rfl

theorem parseCsvLine_entry (m : ChoiceMap) (k v : Str) (hk : k ≠ []) (hv : v ≠ [])
    (htk : trim k = k) (htv : trim v = v) (hck : ',' ∉ k) (hcv : ',' ∉ v) :
    parseCsvLine m (k ++ ',' :: v) = mapSet m k v := by
  have htrim : trim (k ++ ',' :: v) = k ++ ',' :: v := trim_append_fix k v ',' htk htv hk hv
  have hsplit : splitOnChar ',' (k ++ ',' :: v) = [k, v] := by
    rw [splitOnChar_append_sep ',' k v hck, splitOnChar_no_sep ',' v hcv]
  simp only [parseCsvLine, htrim, hsplit]
  rw [isEmpty_false_of_ne_nil _ (by cases k with | nil => exact absurd rfl hk | cons x xs => simp)]
  simp only [Bool.false_eq_true, if_false]
  rw [isEmpty_false_of_ne_nil k hk, isEmpty_false_of_ne_nil v hv]
  simp [htk, htv]

theorem foldl_parse_lines (choices : ChoiceMap) (acc : ChoiceMap)
    (hall : ∀ p ∈ choices, p.1 ≠ [] ∧ p.2 ≠ [] ∧ trim p.1 = p.1 ∧ trim p.2 = p.2 ∧
      ',' ∉ p.1 ∧ ',' ∉ p.2) :
    (choices.map (fun p => p.1 ++ ',' :: p.2)).foldl parseCsvLine acc =
      choices.foldl (fun m p => mapSet m p.1 p.2) acc := by
  induction choices generalizing acc with
  | nil => rfl
  | cons p rest ih =>
    simp only [List.map_cons, List.foldl_cons]
    obtain ⟨h1, h2, h3, h4, h5, h6⟩ := hall p (List.mem_cons_self p rest)
    rw [parseCsvLine_entry acc p.1 p.2 h1 h2 h3 h4 h5 h6]
    exact ih _ (fun q hq => hall q (List.mem_cons_of_mem p hq))

theorem csvLines_content (choices : ChoiceMap) (hne : choices ≠ [])
    (hall : ∀ p ∈ choices, p.1 ≠ [] ∧ p.2 ≠ [] ∧ trim p.1 = p.1 ∧ trim p.2 = p.2 ∧
      ',' ∉ p.1 ∧ '\n' ∉ p.1 ∧ ',' ∉ p.2 ∧ '\n' ∉ p.2) :
    csvLines (csvContent choices) =
      "Image,Choice".data :: choices.map (fun p => p.1 ++ ',' :: p.2) := by
  have hjoin : csvContent choices =
      joinLines '\n' ("Image,Choice".data :: choices.map (fun p => p.1 ++ ',' :: p.2)) := by
    cases choices with
    | nil => exact absurd rfl hne
    | cons p rest =>
      show "Image,Choice\n".data ++ joinLines '\n' _ = _
      rw [show ("Image,Choice\n".data : Str) = "Image,Choice".data ++ ['\n'] by decide]
      simp only [List.map_cons, joinLines, List.append_assoc, List.singleton_append]
  have hsplit : splitOnChar '\n' (csvContent choices) =
      "Image,Choice".data :: choices.map (fun p => p.1 ++ ',' :: p.2) := by
    rw [hjoin]
    apply splitOnChar_joinLines
    · simp
    · intro x hx
      rcases List.mem_cons.mp hx with hx | hx
      · subst hx; decide
      · obtain ⟨p, hp, hpx⟩ := List.mem_map.mp hx
        obtain ⟨_, _, _, _, _, hn1, _, hn2⟩ := hall p hp
        subst hpx
        intro hmem
        rcases List.mem_append.mp hmem with hmem | hmem
        · exact hn1 hmem
        · rcases List.mem_cons.mp hmem with hmem | hmem
          · exact absurd hmem.symm (by decide)
          · exact hn2 hmem
  unfold csvLines
  rw [hsplit]
  rw [List.filter_eq_self.mpr]
  intro a ha
  rcases List.mem_cons.mp ha with ha | ha
  · subst ha; decide
  · obtain ⟨p, hp, hpa⟩ := List.mem_map.mp ha
    obtain ⟨h1, h2, h3, h4, _, _, _, _⟩ := hall p hp
    subst hpa
    rw [trim_ne_nil p.1 p.2 ',' h3 h4 h1 h2]
    rfl

end FigureChecker
namespace FigureChecker

theorem findIndex_none (p : α → Bool) (l : List α) (h : ∀ x ∈ l, p x = false) :
    findIndex p l = none := by
  induction l with
  | nil => rfl
  | cons x xs ih =>
    simp only [findIndex, h x (List.mem_cons_self x xs)]
    rw [ih (fun y hy => h y (List.mem_cons_of_mem x hy))]
    rfl

theorem findIndex_some_of (p : α → Bool) (l : List α) (d : α) (i : Nat)
    (hi : i < l.length) (hp : p (l.getD i d) = true)
    (hmin : ∀ j, j < i → p (l.getD j d) = false) :
    findIndex p l = some i := by
  induction l generalizing i with
  | nil => simp at hi
  | cons x xs ih =>
    cases i with
    | zero =>
      simp only [List.getD_cons_zero] at hp
      simp [findIndex, hp]
    | succ i' =>
      have hx : p x = false := by
        have := hmin 0 (Nat.succ_pos i')
        simpa using this
      simp only [findIndex, hx, Bool.false_eq_true, if_false]
      rw [ih i' (by simpa using hi) (by simpa using hp)
        (fun j hj => by simpa using hmin (j + 1) (by omega))]
      rfl

/-- The round-trip engine: parsing the batch-save serialization of a
well-formed nonempty choice map recovers exactly that map. -/
theorem roundtrip_choices (choices : ChoiceMap) (images : List Str)
    (prev : ChoiceMap) (pidx : Nat) (hne : choices ≠ [])
    (hnd : (choices.map Prod.fst).Nodup)
    (hall : ∀ p ∈ choices, p.1 ≠ [] ∧ p.2 ≠ [] ∧ trim p.1 = p.1 ∧ trim p.2 = p.2 ∧
      ',' ∉ p.1 ∧ '\n' ∉ p.1 ∧ ',' ∉ p.2 ∧ '\n' ∉ p.2) :
    (processCsvFile (csvContent choices) images prev pidx).choices = choices := by
  have hlines := csvLines_content choices hne hall
  have hlen : ¬ (csvLines (csvContent choices)).length < 2 := by
    rw [hlines]
    cases choices with
    | nil => exact absurd rfl hne
    | cons p rest => simp
  simp only [processCsvFile, hlines, if_neg (hlines ▸ hlen)]
  simp only [List.drop_one, List.tail_cons]
  rw [foldl_parse_lines choices []
    (fun p hp => by obtain ⟨h1, h2, h3, h4, h5, _, h6, _⟩ := hall p hp; exact ⟨h1, h2, h3, h4, h5, h6⟩)]
  rw [foldl_mapSet_rebuild choices [] hnd (fun p hp => rfl)]
  simp

end FigureChecker
namespace FigureChecker

theorem mapLookup_map_upd_self (m : ChoiceMap) (k v : Str) :
    mapLookup (m.map (fun p => if p.1 == k then (p.1, v) else p)) k =
      if mapHas m k then some v else none := by
  induction m with
  | nil => rfl
  | cons p rest ih =>
    by_cases hp : p.1 = k
    · simp [mapLookup, mapHas, List.find?_cons, hp]
    · have hbeq : (p.1 == k) = false := by simpa using hp
      simp only [List.map_cons, hbeq, Bool.false_eq_true, if_false]
      simp only [mapLookup, List.find?_cons, hbeq] at ih ⊢
      simp only [mapHas, List.any_cons, hbeq, Bool.false_or]
      simpa [mapHas] using ih

theorem mapLookup_map_upd_other (m : ChoiceMap) (k v k' : Str) (h : k' ≠ k) :
    mapLookup (m.map (fun p => if p.1 == k then (p.1, v) else p)) k' = mapLookup m k' := by
  induction m with
  | nil => rfl
  | cons p rest ih =>
    by_cases hp : p.1 = k
    · have hbeq : (p.1 == k) = true := by simpa using hp
      have hne : (p.1 == k') = false := by simp [hp]; exact fun hc => absurd hc.symm h
      simp only [mapLookup, List.map_cons, hbeq, if_true, List.find?_cons, hne] at ih ⊢
      simpa using ih
    · have hbeq : (p.1 == k) = false := by simpa using hp
      simp only [mapLookup, List.map_cons, hbeq, Bool.false_eq_true, if_false,
        List.find?_cons] at ih ⊢
      cases hk' : (p.1 == k') with
      | true => rfl
      | false => simpa using ih

theorem mapHas_find?_none (m : ChoiceMap) (k : Str) (h : mapHas m k = false) :
    m.find? (fun p => p.1 == k) = none := by
  rw [List.find?_eq_none]
  intro p hp
  have := (mapHas_false_iff m k).mp h p hp
  simpa using this

theorem mapLookup_mapSet (m : ChoiceMap) (k v k' : Str) :
    mapLookup (mapSet m k v) k' = if k' = k then some v else mapLookup m k' := by
  by_cases hhas : mapHas m k
  · simp only [mapSet, hhas, if_true]
    by_cases hk : k' = k
    · subst hk
      rw [mapLookup_map_upd_self m k' v]
      simp [hhas]
    · rw [mapLookup_map_upd_other m k v k' hk, if_neg hk]
  · have hhas' : mapHas m k = false := by simpa using hhas
    simp only [mapSet, hhas', Bool.false_eq_true, if_false]
    by_cases hk : k' = k
    · subst hk
      simp only [mapLookup, List.find?_append, mapHas_find?_none m k' hhas']
      simp
    · have hne : (k == k') = false := by simp; exact fun hc => absurd hc.symm hk
      simp only [mapLookup, List.find?_append, List.find?_cons, hne, if_neg hk]
      simp [List.find?]

theorem keys_mapSet_nodup (m : ChoiceMap) (k v : Str)
    (h : (m.map Prod.fst).Nodup) : ((mapSet m k v).map Prod.fst).Nodup := by
  by_cases hhas : mapHas m k
  · simp only [mapSet, hhas, if_true]
    have : (m.map (fun p => if p.1 == k then (p.1, v) else p)).map Prod.fst =
        m.map Prod.fst := by
      rw [List.map_map]
      apply List.map_congr_left
      intro p hp
      by_cases hpk : p.1 = k <;> simp [hpk]
    rw [this]; exact h
  · have hhas' : mapHas m k = false := by simpa using hhas
    simp only [mapSet, hhas', Bool.false_eq_true, if_false, List.map_append]
    rw [List.nodup_append]
    refine ⟨h, List.nodup_singleton k, ?_⟩
    intro a ha hb
    simp at hb
    obtain ⟨p, hp, hpk⟩ := List.mem_map.mp ha
    exact ((mapHas_false_iff m k).mp hhas' p hp) (hpk.trans hb)

theorem mapLookup_foldl (pairs : List (Str × Str)) (acc : ChoiceMap) (k : Str) :
    mapLookup (pairs.foldl (fun m q => mapSet m q.1 q.2) acc) k =
      ((pairs.reverse.find? (fun q => q.1 == k)).map (fun q => q.2)).or (mapLookup acc k) := by
  induction pairs generalizing acc with
  | nil => simp
  | cons p rest ih =>
    simp only [List.foldl_cons, List.reverse_cons, List.find?_append]
    rw [ih (mapSet acc p.1 p.2)]
    cases hf : rest.reverse.find? (fun q => q.1 == k) with
    | some q => simp [hf]
    | none =>
      simp only [hf, Option.map_none', Option.none_or]
      rw [mapLookup_mapSet]
      by_cases hk : k = p.1
      · have hbeq : (p.1 == k) = true := by simp [hk]
        simp [List.find?, hbeq, hk]
      · have hbeq : (p.1 == k) = false := by simp; exact fun hc => absurd hc.symm hk
        simp [List.find?, hbeq, hk]

theorem keys_foldl_nodup (pairs : List (Str × Str)) (acc : ChoiceMap)
    (h : (acc.map Prod.fst).Nodup) :
    ((pairs.foldl (fun m q => mapSet m q.1 q.2) acc).map Prod.fst).Nodup := by
  induction pairs generalizing acc with
  | nil => exact h
  | cons p rest ih => exact ih _ (keys_mapSet_nodup acc p.1 p.2 h)

theorem parseCsvLine_linePair (m : ChoiceMap) (l : Str) :
    parseCsvLine m l = match linePair l with
      | some q => mapSet m q.1 q.2
      | none => m := by
  simp only [parseCsvLine, linePair]
  cases hE : (trim l).isEmpty
  · cases hs : splitOnChar ',' (trim l) with
    | nil => simp
    | cons a tl =>
      cases tl with
      | nil => simp
      | cons b tl' =>
        cases hg : (!a.isEmpty && !b.isEmpty) <;> simp [hg]
  · simp

theorem foldl_parse_filterMap (ls : List Str) (acc : ChoiceMap) :
    ls.foldl parseCsvLine acc =
      (ls.filterMap linePair).foldl (fun m q => mapSet m q.1 q.2) acc := by
  induction ls generalizing acc with
  | nil => rfl
  | cons l ls' ih =>
    simp only [List.foldl_cons, List.filterMap_cons]
    rw [parseCsvLine_linePair acc l]
    cases hl : linePair l with
    | none => simp only; exact ih acc
    | some q => simp only [List.foldl_cons]; exact ih _

end FigureChecker
namespace FigureChecker

theorem mem_of_mem_trim (s : Str) (c : Char) (h : c ∈ trim s) : c ∈ s := by
  have h1 := (List.dropWhile_sublist (l := (s.dropWhile isWs).reverse) isWs).subset
  have h2 := (List.dropWhile_sublist (l := s) isWs).subset
  rw [trim] at h
  rw [List.mem_reverse] at h
  have := h1 h
  rw [List.mem_reverse] at this
  exact h2 this

/-- C1 counterexample: the ChoiceMap binding `"a"` to the empty value contains
no commas or newlines, yet serializing it (`Image,Choice` header plus the line
`a,`) and parsing that back yields the empty map, because the read path skips
lines whose second field is falsy. -/
theorem csv_roundtrip_cex :
    (',' ∉ ("a".data : Str)) ∧ ('\n' ∉ ("a".data : Str)) ∧
    (processCsvFile (csvContent [("a".data, ([] : Str))]) [] [] 0).choices ≠
      [("a".data, ([] : Str))] := by decide

/-- C1 (amended): for every nonempty ChoiceMap with pairwise-distinct keys
whose identifiers and values are nonempty, contain no commas or newlines, and
carry no leading or trailing whitespace, serializing with the batch-save CSV
content and parsing back with the CSV read path yields a mapping equal to the
original. -/
theorem csv_roundtrip (choices : ChoiceMap) (images : List Str)
    (prev : ChoiceMap) (pidx : Nat) (hne : choices ≠ [])
    (hnd : (choices.map Prod.fst).Nodup)
    (hall : ∀ p ∈ choices, p.1 ≠ [] ∧ p.2 ≠ [] ∧ trim p.1 = p.1 ∧ trim p.2 = p.2 ∧
      ',' ∉ p.1 ∧ '\n' ∉ p.1 ∧ ',' ∉ p.2 ∧ '\n' ∉ p.2) :
    (processCsvFile (csvContent choices) images prev pidx).choices = choices := by
  have hlines := csvLines_content choices hne hall
  have hlen : ¬ (csvLines (csvContent choices)).length < 2 := by
    rw [hlines]
    cases choices with
    | nil => exact absurd rfl hne
    | cons p rest => simp
  simp only [processCsvFile, hlines, if_neg (hlines ▸ hlen)]
  simp only [List.drop_one, List.tail_cons]
  rw [foldl_parse_lines choices []
    (fun p hp => by
      obtain ⟨h1, h2, h3, h4, h5, _, h6, _⟩ := hall p hp
      exact ⟨h1, h2, h3, h4, h5, h6⟩)]
  rw [foldl_mapSet_rebuild choices [] hnd (fun p hp => rfl)]
  simp

/-- C1 witness: the round-trip theorem applied to the concrete map
binding cat.png to Y and dog.jpg to N. -/
theorem csv_roundtrip_witness :
    (processCsvFile
      (csvContent [("cat.png".data, "Y".data), ("dog.jpg".data, "N".data)])
      [] [] 0).choices =
      [("cat.png".data, "Y".data), ("dog.jpg".data, "N".data)] :=
  csv_roundtrip _ [] [] 0 (by decide) (by decide) (by decide)

/-- C2 counterexample: every image of the two-element list already has a
recorded choice and the cursor sits at index 1, yet `goToNextUnselected`
leaves the cursor at 1 instead of setting it to 0 — the source has no `else`
branch for the fully-labeled case. -/
theorem goToNextUnselected_cex :
    ((["a".data, "b".data] : List Str) ≠ []) ∧
    (∀ im ∈ (["a".data, "b".data] : List Str),
      mapHas [("a".data, "Y".data), ("b".data, "N".data)] im = true) ∧
    (goToNextUnselected
      ⟨["a".data, "b".data], 1, [("a".data, "Y".data), ("b".data, "N".data)]⟩
      ).currentImageIndex ≠ 0 := by decide

/-- C2 (amended): for every non-empty image list, `goToNextUnselected` sets
the cursor to the lowest index whose identifier is absent from the ChoiceMap
when at least one such index exists, and leaves the whole state unchanged
when every image already has a recorded choice. -/
theorem goToNextUnselected_spec (st : SessionState) (_hne : st.images ≠ []) :
    ((∀ im ∈ st.images, mapHas st.imageChoices im = true) →
      goToNextUnselected st = st) ∧
    (∀ i, i < st.images.length →
      mapHas st.imageChoices (st.images.getD i []) = false →
      (∀ j, j < i → mapHas st.imageChoices (st.images.getD j []) = true) →
      (goToNextUnselected st).currentImageIndex = i) := by
  constructor
  · intro hall
    have hnone : findIndex (fun im => ! mapHas st.imageChoices im) st.images = none :=
      findIndex_none _ _ (fun x hx => by rw [hall x hx]; rfl)
    rw [goToNextUnselected, hnone]
  · intro i hi hpi hmin
    have hsome : findIndex (fun im => ! mapHas st.imageChoices im) st.images = some i :=
      findIndex_some_of _ _ [] i hi (by rw [hpi]; rfl)
        (fun j hj => by rw [hmin j hj]; rfl)
    rw [goToNextUnselected, hsome]

/-- C2 witness: with choices recorded only for the image at index 0, the
amended theorem places the cursor at index 1. -/
theorem goToNextUnselected_spec_witness :
    (goToNextUnselected
      ⟨["a".data, "b".data], 0, [("a".data, "Y".data)]⟩).currentImageIndex = 1 :=
  (goToNextUnselected_spec _ (by decide)).2 1 (by decide) (by decide) (by decide)

/-- C3 counterexample: on the data line `x,b,c` the source's
`line.split(',')` destructuring stores the value `b` (the second
comma-separated field), while splitting on the first comma as the claim
states would store `b,c`; the two read paths disagree on this input. -/
theorem csv_parse_cex :
    (processCsvFile "Image,Choice\nx,b,c".data [] [] 0).choices =
      [("x".data, "b".data)] ∧
    ((csvLines "Image,Choice\nx,b,c".data).drop 1).foldl parseCsvLineSpecWords [] =
      [("x".data, "b,c".data)] ∧
    (("b".data : Str) ≠ "b,c".data) := by decide

/-- C3 (amended): the read path trims each line, splits it on every comma and
keeps only the first two fields — so the stored value is the second
comma-separated field, with any text after a second comma discarded — trims
both fields, silently skips lines with no comma at all or with an empty first
or second field, and reports a success message (never an error) whenever the
file had at least 2 non-blank lines. -/
theorem csv_parse_spec (m : ChoiceMap) (rawLine a b rest text : Str)
    (images : List Str) (prev : ChoiceMap) (pidx : Nat) :
    (',' ∉ rawLine → parseCsvLine m rawLine = m) ∧
    (trim rawLine = a ++ ',' :: b → ',' ∉ a → ',' ∉ b →
      parseCsvLine m rawLine =
        if !a.isEmpty && !b.isEmpty then mapSet m (trim a) (trim b) else m) ∧
    (trim rawLine = a ++ ',' :: b ++ ',' :: rest → ',' ∉ a → ',' ∉ b →
      parseCsvLine m rawLine =
        if !a.isEmpty && !b.isEmpty then mapSet m (trim a) (trim b) else m) ∧
    (¬ (csvLines text).length < 2 →
      (processCsvFile text images prev pidx).message =
        "CSV loaded successfully. " ++
          toString (processCsvFile text images prev pidx).choices.length ++
          " choices loaded.") := by
  refine ⟨?_, ?_, ?_, ?_⟩
  · intro hnc
    have hnc' : ',' ∉ trim rawLine := fun hmem => hnc (mem_of_mem_trim rawLine ',' hmem)
    simp only [parseCsvLine]
    cases hE : (trim rawLine).isEmpty
    · rw [splitOnChar_no_sep ',' (trim rawLine) hnc']
      simp
    · simp
  · intro heq ha hb
    have hsplit : splitOnChar ',' (trim rawLine) = [a, b] := by
      rw [heq, splitOnChar_append_sep ',' a _ ha, splitOnChar_no_sep ',' b hb]
    have hEm : (trim rawLine).isEmpty = false := by
      rw [heq]; cases a <;> rfl
    simp only [parseCsvLine, hEm, Bool.false_eq_true, if_false, hsplit]
  · intro heq ha hb
    have hsplit : splitOnChar ',' (trim rawLine) = a :: b :: splitOnChar ',' rest := by
      rw [heq, List.append_assoc, List.cons_append,
        splitOnChar_append_sep ',' a _ ha, splitOnChar_append_sep ',' b _ hb]
    have hEm : (trim rawLine).isEmpty = false := by
      rw [heq]; cases a <;> rfl
    simp only [parseCsvLine, hEm, Bool.false_eq_true, if_false, hsplit]
  · intro hlen
    simp only [processCsvFile, if_neg hlen]

/-- C3 witness: the first-two-fields characterization instantiated on the
line `x,b,c`. -/
theorem csv_parse_spec_witness :
    parseCsvLine [] "x,b,c".data =
      if !("x".data : Str).isEmpty && !("b".data : Str).isEmpty then
        mapSet [] (trim "x".data) (trim "b".data) else [] :=
  (csv_parse_spec [] "x,b,c".data "x".data "b".data "c".data [] [] [] 0).2.2.1
    (by decide) (by decide) (by decide)

/-- C4: after a successful CSV load the cursor is the index of the first
image of the current list absent from the loaded ChoiceMap, or 0 when every
image of the list is present in it. -/
theorem processCsvFile_cursor (text : Str) (images : List Str) (prev : ChoiceMap)
    (pidx : Nat) (h : ¬ (csvLines text).length < 2) :
    (∀ i, i < images.length →
      mapHas (processCsvFile text images prev pidx).choices (images.getD i []) = false →
      (∀ j, j < i →
        mapHas (processCsvFile text images prev pidx).choices (images.getD j []) = true) →
      (processCsvFile text images prev pidx).index = i) ∧
    ((∀ im ∈ images, mapHas (processCsvFile text images prev pidx).choices im = true) →
      (processCsvFile text images prev pidx).index = 0) := by
  have hch : (processCsvFile text images prev pidx).choices =
      ((csvLines text).drop 1).foldl parseCsvLine [] := by
    simp only [processCsvFile, if_neg h]
  have hidx : (processCsvFile text images prev pidx).index =
      match findIndex
        (fun im => ! mapHas (((csvLines text).drop 1).foldl parseCsvLine []) im) images with
      | some i => i
      | none => 0 := by
    simp only [processCsvFile, if_neg h]
  constructor
  · intro i hi hpi hmin
    rw [hch] at hpi hmin
    have hsome : findIndex
        (fun im => ! mapHas (((csvLines text).drop 1).foldl parseCsvLine []) im) images =
        some i :=
      findIndex_some_of _ _ [] i hi (by rw [hpi]; rfl)
        (fun j hj => by rw [hmin j hj]; rfl)
    rw [hidx, hsome]
  · intro hall
    have hnone : findIndex
        (fun im => ! mapHas (((csvLines text).drop 1).foldl parseCsvLine []) im) images =
        none :=
      findIndex_none _ _ (fun x hx => by rw [← hch, hall x hx]; rfl)
    rw [hidx, hnone]

/-- C4 witness: loading `Image,Choice\ncat.png,Y\n` against the list
`[cat.png, dog.jpg]` puts the cursor at index 1, the index of dog.jpg. -/
theorem processCsvFile_cursor_witness :
    (processCsvFile "Image,Choice\ncat.png,Y\n".data
      ["cat.png".data, "dog.jpg".data] [] 0).index = 1 :=
  (processCsvFile_cursor "Image,Choice\ncat.png,Y\n".data
    ["cat.png".data, "dog.jpg".data] [] 0 (by decide)).1 1
    (by decide) (by decide) (by decide)

/-- C5: a CSV text with fewer than 2 lines is rejected: the load result
carries the user-facing message `Invalid CSV format` and returns the previous
choices and cursor unchanged. -/
theorem processCsvFile_rejects_short (text : Str) (images : List Str)
    (prev : ChoiceMap) (pidx : Nat) (h : (splitOnChar '\n' text).length < 2) :
    processCsvFile text images prev pidx =
      { choices := prev, index := pidx, message := "Invalid CSV format" } := by
  have hle : (csvLines text).length ≤ (splitOnChar '\n' text).length :=
    List.length_filter_le _ _
  simp only [processCsvFile, if_pos (by omega : (csvLines text).length < 2)]

/-- C5 witness: a header-only file is rejected with no state change. -/
theorem processCsvFile_rejects_short_witness :
    processCsvFile "Image,Choice".data ["a.png".data] [] 0 =
      { choices := [], index := 0, message := "Invalid CSV format" } :=
  processCsvFile_rejects_short _ _ [] 0 (by decide)

/-- C6: on a non-empty image list, recording a choice advances the cursor
cyclically — one step forward below the last index, wrapping from the last
index to 0 — and the cursor stays within the bounds of the unchanged image
list. -/
theorem handleChoice_advance (st : SessionState) (choice : Str)
    (hne : st.images ≠ []) :
    ((handleChoice st choice).images = st.images) ∧
    (st.currentImageIndex + 1 < st.images.length →
      (handleChoice st choice).currentImageIndex = st.currentImageIndex + 1) ∧
    (st.currentImageIndex = st.images.length - 1 →
      (handleChoice st choice).currentImageIndex = 0) ∧
    ((handleChoice st choice).currentImageIndex < st.images.length) := by
  have hlen : ¬ st.images.length = 0 := fun hc => hne (List.length_eq_zero.mp hc)
  simp only [handleChoice, if_neg hlen]
  by_cases hlt : st.currentImageIndex < st.images.length - 1
  · simp only [if_pos hlt]
    exact ⟨trivial, fun _ => trivial, fun heq => by omega, by omega⟩
  · simp only [if_neg hlt]
    exact ⟨trivial, fun hc => by omega, fun _ => trivial, by omega⟩

/-- C6 witness: with the cursor on the last of two images, recording a
choice wraps the cursor to 0. -/
theorem handleChoice_advance_witness :
    (handleChoice ⟨["a".data, "b".data], 1, []⟩ "Y".data).currentImageIndex = 0 :=
  (handleChoice_advance ⟨["a".data, "b".data], 1, []⟩ "Y".data (by decide)).2.2.1
    (by decide)

theorem mapHas_map_upd (m : ChoiceMap) (k v k' : Str) :
    mapHas (m.map (fun p => if p.1 == k then (p.1, v) else p)) k' = mapHas m k' := by
  induction m with
  | nil => rfl
  | cons p rest ih =>
    have hfst : (if p.1 == k then (p.1, v) else p).1 = p.1 := by
      by_cases h : p.1 = k <;> simp [h]
    simp only [List.map_cons, mapHas, List.any_cons] at ih ⊢
    rw [hfst, ih]

/-- C7: recording the same `(identifier, value)` choice twice through the
JavaScript-`Map` upsert used by `handleChoice` leaves the ChoiceMap unchanged
after the second call, for every identifier, value, and prior map state. -/
theorem recordChoice_idempotent (m : ChoiceMap) (k v : Str) :
    mapSet (mapSet m k v) k v = mapSet m k v := by
  by_cases hhas : mapHas m k
  · have h1 : mapSet m k v = m.map (fun p => if p.1 == k then (p.1, v) else p) := by
      simp [mapSet, hhas]
    have hhas2 : mapHas (mapSet m k v) k = true := by
      rw [h1, mapHas_map_upd]; exact hhas
    rw [mapSet, if_pos hhas2, h1, List.map_map]
    apply List.map_congr_left
    intro p hp
    by_cases hpk : p.1 = k <;> simp [hpk]
  · have hhas' : mapHas m k = false := by simpa using hhas
    have h1 : mapSet m k v = m ++ [(k, v)] := mapSet_append m k v hhas'
    have hhas2 : mapHas (mapSet m k v) k = true := by
      rw [h1, mapHas_append_iff]
      simp [mapHas]
    rw [mapSet, if_pos hhas2, h1, List.map_append]
    have hmap1 : m.map (fun p => if p.1 == k then (p.1, v) else p) = m := by
      apply (List.map_congr_left (g := id) ?_).trans (List.map_id m)
      intro p hp
      have : p.1 ≠ k := (mapHas_false_iff m k).mp hhas' p hp
      simp [this]
    have hmap2 : ([(k, v)] : ChoiceMap).map
        (fun p => if p.1 == k then (p.1, v) else p) = [(k, v)] := by simp
    rw [hmap1, hmap2]

/-- C8: both directory-scan paths include exactly the entries whose bare
filename passes the case-insensitive image-extension test for `.jpg`,
`.jpeg`, `.png`, `.gif`; in particular `a.JPG` passes and `a.txt` does not. -/
theorem directoryScan_filters :
    (∀ entries name, name ∈ handleDirectorySelectImages entries ↔
      ∃ e ∈ entries, e.isFile = true ∧ hasImageExt e.name = true ∧ e.name = name) ∧
    (∀ paths name, name ∈ handleDirectoryChangeImages paths ↔
      ∃ p ∈ paths, (splitOnChar '/' p).getLast? = some name ∧ name ≠ [] ∧
        hasImageExt name = true) ∧
    hasImageExt "a.JPG".data = true ∧ hasImageExt "a.txt".data = false := by
  refine ⟨?_, ?_, by decide, by decide⟩
  · intro entries name
    simp only [handleDirectorySelectImages, List.mem_map, List.mem_filter,
      Bool.and_eq_true]
    constructor
    · rintro ⟨e, ⟨he, hf, hx⟩, rfl⟩
      exact ⟨e, he, hf, hx, rfl⟩
    · rintro ⟨e, he, hf, hx, rfl⟩
      exact ⟨e, ⟨he, hf, hx⟩, rfl⟩
  · intro paths name
    simp only [handleDirectoryChangeImages, List.mem_filterMap]
    constructor
    · rintro ⟨p, hp, hopt⟩
      cases hlast : (splitOnChar '/' p).getLast? with
      | none => rw [hlast] at hopt; simp at hopt
      | some n =>
        rw [hlast] at hopt
        dsimp only at hopt
        cases hcond : (!n.isEmpty && hasImageExt n) with
        | false => rw [hcond] at hopt; simp at hopt
        | true =>
          rw [hcond] at hopt
          simp only [if_true] at hopt
          rw [Option.some.injEq] at hopt
          subst hopt
          rw [Bool.and_eq_true] at hcond
          refine ⟨p, hp, hlast, ?_, hcond.2⟩
          intro hnil
          have h1 := hcond.1
          rw [hnil] at h1
          simp at h1
    · rintro ⟨p, hp, hlast, hnn, hext⟩
      refine ⟨p, hp, ?_⟩
      rw [hlast]
      simp only [isEmpty_false_of_ne_nil name hnn, hext, Bool.not_false,
        Bool.and_self, if_true]

/-- C9: for every label schema with pairwise-distinct case-insensitive keys,
at most one definition matches a keystroke, and a matching keystroke drives
`handleChoice` with exactly the value the matching label's button click
would. -/
theorem keyDispatch_unique (labels : List LabelDef)
    (huniq : (labels.map (fun l => lowerStr l.key)).Nodup) :
    (∀ k : Str, ∀ l₁ ∈ labels, ∀ l₂ ∈ labels, lowerStr l₁.key = lowerStr k →
      lowerStr l₂.key = lowerStr k → l₁ = l₂) ∧
    (∀ (st : SessionState) (k : Str) (l : LabelDef), l ∈ labels →
      lowerStr l.key = lowerStr k →
      matchedLabel labels k = some l ∧
        handleKeyDown labels st k = clickLabelButton st l) := by
  have hinj := List.inj_on_of_nodup_map huniq
  constructor
  · intro k l₁ h₁ l₂ h₂ e₁ e₂
    exact hinj h₁ h₂ (by rw [e₁, e₂])
  · intro st k l hl he
    have hmatch : matchedLabel labels k = some l := by
      have hex : (labels.find? (fun ld => lowerStr ld.key == lowerStr k)).isSome := by
        rw [List.find?_isSome]
        exact ⟨l, hl, by simp [he]⟩
      obtain ⟨l', hl'⟩ := Option.isSome_iff_exists.mp hex
      have hmem := List.mem_of_find?_eq_some hl'
      have hpred : lowerStr l'.key = lowerStr k := by
        simpa using List.find?_some hl'
      have heql : l' = l := hinj hmem hl (by rw [hpred, he])
      rw [matchedLabel, hl', heql]
    refine ⟨hmatch, ?_⟩
    rw [handleKeyDown, hmatch]
    rfl

/-- C9 witness: in the default schema, the keystroke `Y` matches the label
with key `y` and dispatches exactly as that label's button click. -/
theorem keyDispatch_unique_witness :
    matchedLabel defaultLabels "Y".data = some ⟨"y".data, "Y".data⟩ ∧
    handleKeyDown defaultLabels ⟨["a".data], 0, []⟩ "Y".data =
      clickLabelButton ⟨["a".data], 0, []⟩ ⟨"y".data, "Y".data⟩ :=
  (keyDispatch_unique defaultLabels (by decide)).2 ⟨["a".data], 0, []⟩ "Y".data
    ⟨"y".data, "Y".data⟩ (by decide) (by decide)

/-- C10: after a successful CSV load, each identifier occurs at most once in
the resulting ChoiceMap (its keys are pairwise distinct), and looking one up
returns the value of the last parsed data line bearing that identifier. -/
theorem csvLoad_lastWins (text : Str) (images : List Str) (prev : ChoiceMap)
    (pidx : Nat) (h : ¬ (csvLines text).length < 2) (k : Str) :
    mapLookup (processCsvFile text images prev pidx).choices k =
      ((csvPairs text).reverse.find? (fun q => q.1 == k)).map (fun q => q.2) ∧
    ((processCsvFile text images prev pidx).choices.map Prod.fst).Nodup := by
  have hch : (processCsvFile text images prev pidx).choices =
      ((csvLines text).drop 1).foldl parseCsvLine [] := by
    simp only [processCsvFile, if_neg h]
  rw [hch, foldl_parse_filterMap]
  constructor
  · rw [mapLookup_foldl]
    simp [csvPairs, mapLookup]
  · exact keys_foldl_nodup _ [] (by simp)

/-- C10 witness: a file with two lines for the identifier `im` loads the
value of the last one. -/
theorem csvLoad_lastWins_witness :
    mapLookup (processCsvFile "Image,Choice\nim,X\nim,Z".data [] [] 0).choices
      "im".data = some "Z".data := by
  rw [(csvLoad_lastWins "Image,Choice\nim,X\nim,Z".data [] [] 0 (by decide)
    "im".data).1]
  decide

end FigureChecker
